import Mathlib

/-!
Shallow embedding of the media pipeline implemented in `src/app/page.tsx`
(image enhancement with an unsharp convolution, branding hashtag, caption
word-wrap, the video frame loop, the webm→mp4 transcoding step, and the
per-batch driver `processFiles`), together with proofs about it.

Modelling conventions:
* JavaScript numbers are modelled as rationals (`ℚ`); all arithmetic appearing
  in the modelled code paths is exact on the values involved.
* A `Uint8ClampedArray` pixel buffer is modelled as its contents, a total
  function from byte index to stored sample value (`ℤ → ℤ`).
* Fallible steps are parameterised by their outcome (`Bool` flags or `Except`).
-/

/- ### The sharpen pass (`applySharpen`, `clamp` in the source) -/

/-- Byte index of the first sample of pixel `(x, y)` in the row-major RGBA
buffer: the source's `getIndex = (x, y) => (y * width + x) * 4`. -/
def getIndex (width x y : ℤ) : ℤ := (y * width + x) * 4

/-- The source's `clamp = (value) => Math.max(0, Math.min(255, value))`. -/
def clamp (value : ℚ) : ℚ := max 0 (min 255 value)

/-- Rounding half to even, which is what a store into a `Uint8ClampedArray`
performs on an in-range value (ECMAScript `ToUint8Clamp`). -/
def roundTiesEven (q : ℚ) : ℤ :=
  if q - ⌊q⌋ < 1/2 then ⌊q⌋
  else if 1/2 < q - ⌊q⌋ then ⌊q⌋ + 1
  else if ⌊q⌋ % 2 = 0 then ⌊q⌋ else ⌊q⌋ + 1

/-- The effect of `data[dest] = clamp(...)`: the source first applies its own
`clamp` into `[0, 255]` and the typed-array store then rounds ties to even. -/
def storeByte (v : ℚ) : ℤ := roundTiesEven (clamp v)

/-- The 3×3 kernel of `applySharpen`, row-major, exactly as the `weights`
array in the source. -/
def weights (intensity : ℚ) : List ℚ :=
  [0, -1 * intensity, 0, -1 * intensity, 1 + 4 * intensity, -1 * intensity, 0, -1 * intensity, 0]

/-- The `(kx, ky)` offsets visited by the kernel loops, in the order the
source visits them (`ky` outer from -1 to 1, `kx` inner from -1 to 1). -/
def kernelOffsets : List (ℤ × ℤ) :=
  [(-1, -1), (0, -1), (1, -1), (-1, 0), (0, 0), (1, 0), (-1, 1), (0, 1), (1, 1)]

/-- The accumulated kernel sum for one channel `ch` of pixel `(x, y)`:
`r += copy[idx] * weight` over the nine kernel positions, reading from the
snapshot `copy`. -/
def convSum (copy : ℤ → ℤ) (width : ℤ) (intensity : ℚ) (x y ch : ℤ) : ℚ :=
  (kernelOffsets.zip (weights intensity)).foldl
    (fun acc kw => acc + (copy (getIndex width (x + kw.1.1) (y + kw.1.2) + ch) : ℚ) * kw.2) 0

/-- Writing one cell of the mutable buffer. -/
def updateBuf (d : ℤ → ℤ) (i v : ℤ) : ℤ → ℤ := fun j => if j = i then v else d j

/-- The body of the double loop of `applySharpen` for one pixel `(x, y)`:
compute the three channel sums from the snapshot `copy`, then perform the
three in-place stores `data[dest+ch] = clamp(data[dest+ch] + sum)`. -/
def sharpenPixel (copy : ℤ → ℤ) (width : ℤ) (intensity : ℚ) (data : ℤ → ℤ) (x y : ℤ) :
    ℤ → ℤ :=
  let dest := getIndex width x y
  let r := convSum copy width intensity x y 0
  let g := convSum copy width intensity x y 1
  let b := convSum copy width intensity x y 2
  let data1 := updateBuf data dest (storeByte ((data dest : ℚ) + r))
  let data2 := updateBuf data1 (dest + 1) (storeByte ((data1 (dest + 1) : ℚ) + g))
  updateBuf data2 (dest + 2) (storeByte ((data2 (dest + 2) : ℚ) + b))

/-- One row of the interior pixels visited by the inner loop
(`for x = 1; x < width - 1`). -/
def interiorRow (width y : ℕ) : List (ℤ × ℤ) :=
  (List.range' 1 (width - 2)).map (fun x : ℕ => ((x : ℤ), (y : ℤ)))

/-- All pixels visited by the double loop of `applySharpen`
(`for y = 1; y < height - 1` outer, `for x = 1; x < width - 1` inner). -/
def interiorCoords (width height : ℕ) : List (ℤ × ℤ) :=
  ((List.range' 1 (height - 2)).map (interiorRow width)).flatten

/-- The source's `applySharpen`: snapshot the buffer into `copy`, then run the
double loop, each iteration reading neighbours from `copy` and writing the
pixel's three colour channels into `data` in place. -/
def applySharpen (width height : ℕ) (data : ℤ → ℤ) (intensity : ℚ) : ℤ → ℤ :=
  let copy := data
  (interiorCoords width height).foldl
    (fun d p => sharpenPixel copy (width : ℤ) intensity d p.1 p.2) data

/- ### `enhanceOne`: parameter handling and the pixel stage -/

/-- The numeric enhancement parameters (`ProcessingOptions` in the source). -/
structure ProcessingOptions where
  scale : ℚ
  brightness : ℚ
  saturation : ℚ
  sharpen : ℚ

/-- What `enhanceOne` does with its options before pixel processing: the canvas
dimensions it allocates, the values it interpolates into the canvas filter
string, and the intensity it hands to `applySharpen` (if any). -/
structure EnhancePlan where
  canvasWidth : ℚ
  canvasHeight : ℚ
  filterBrightness : ℚ
  filterSaturation : ℚ
  sharpenIntensity : Option ℚ

/-- The parameter flow of `enhanceOne`: `canvas.width = bitmap.width * opts.scale`,
`ctx.filter` interpolates `opts.brightness` and `opts.saturation` verbatim, and
`applySharpen(imageData, opts.sharpen)` runs exactly when `opts.sharpen > 0`. -/
def enhanceOnePlan (srcWidth srcHeight : ℚ) (opts : ProcessingOptions) : EnhancePlan where
  canvasWidth := srcWidth * opts.scale
  canvasHeight := srcHeight * opts.scale
  filterBrightness := opts.brightness
  filterSaturation := opts.saturation
  sharpenIntensity := if opts.sharpen > 0 then some opts.sharpen else none

/-- The pixel stage of `enhanceOne` after the filtered draw: `imageData` is the
resampled, colour-adjusted buffer; it is sharpened when `opts.sharpen > 0` and
put back unchanged otherwise. -/
def enhancePixels (width height : ℕ) (imageData : ℤ → ℤ) (opts : ProcessingOptions) :
    ℤ → ℤ :=
  if opts.sharpen > 0 then applySharpen width height imageData opts.sharpen else imageData

/- ### The brand hashtag (`brandingText` in `createVideoFromImage`) -/

/-- Characters matched by the JavaScript regular expression class `\s`. -/
def isJsWhitespace (c : Char) : Bool :=
  c = ' ' || c = '\t' || c = '\n' || c = '\r' || c = '\x0b' || c = '\x0c' ||
  c = '\u00A0' || c = '\u1680' || ('\u2000' ≤ c && c ≤ '\u200A') ||
  c = '\u2028' || c = '\u2029' || c = '\u202F' || c = '\u205F' || c = '\u3000' ||
  c = '\uFEFF'

/-- The source's branding tag: an empty brand (falsy) yields no tag, otherwise
the tag is a hash sign followed by the brand with every whitespace character
removed (the effect of `brand.replace` on the pattern whitespace-run → empty). -/
def brandingText (brand : String) : String :=
  if brand = "" then "" else "#" ++ String.mk (brand.data.filter (fun c => !(isJsWhitespace c)))

/- ### The caption word wrap (`wrapText`) -/

/-- JavaScript `String.prototype.split` with a single-character separator:
every occurrence of the separator produces a boundary, so the empty string
splits to one empty field, adjacent separators produce empty fields, and a
trailing separator produces a trailing empty field. -/
def jsSplit (sep : Char) : List Char → List (List Char)
  | [] => [[]]
  | c :: rest =>
    match jsSplit sep rest with
    | [] => [[c]]
    | w :: ws => if c = sep then [] :: w :: ws else (c :: w) :: ws

/-- The word list of `wrapTextModel`: the source's `text.split(" ")`. -/
def splitWords (text : String) : List String :=
  (jsSplit ' ' text.data).map (fun cs => String.mk cs)

/-- The estimated rendered width of a candidate line:
`tentative.length * (fontSize * 0.55)`. -/
def lineWidth (line : String) (fontSize : ℚ) : ℚ :=
  (line.length : ℚ) * (fontSize * (55 / 100))

/-- One iteration of the word loop of `wrapText`: state is
`(lines so far, currentLine)`; `tentative` is the current line extended by the
word (or the word itself when the current line is empty/falsy); an overflowing
tentative pushes the non-empty current line and restarts from the word,
otherwise the tentative becomes the current line. -/
def wrapStep (fontSize maxWidth : ℚ) (st : List String × String) (word : String) :
    List String × String :=
  let tentative := if st.2 = "" then word else st.2 ++ " " ++ word
  if lineWidth tentative fontSize > maxWidth then
    (if st.2 = "" then st.1 else st.1 ++ [st.2], word)
  else
    (st.1, tentative)

/-- The word loop of `wrapText` over an explicit word list, including the final
push of a non-empty `currentLine`. -/
def wrapWords (words : List String) (fontSize maxWidth : ℚ) : List String :=
  let st := words.foldl (wrapStep fontSize maxWidth) ([], "")
  if st.2 = "" then st.1 else st.1 ++ [st.2]

/-- The source's `wrapText(text, fontSize, maxWidth)`. -/
def wrapTextModel (text : String) (fontSize maxWidth : ℚ) : List String :=
  wrapWords (splitWords text) fontSize maxWidth

/-- Joining a word list back with single spaces; used to state that every
emitted line is a space-join of whole input words. -/
def joinWords : List String → String
  | [] => ""
  | [w] => w
  | w :: ws => w ++ " " ++ joinWords ws

/-- The property every emitted wrap line satisfies: its estimated width fits
within the maximum or the line is a single input word, and the line is a
space-join of whole input words. -/
def WrapLineOk (words : List String) (fontSize maxWidth : ℚ) (l : String) : Prop :=
  (lineWidth l fontSize ≤ maxWidth ∨ l ∈ words) ∧
  ∃ ws : List String, ws ≠ [] ∧ (∀ w ∈ ws, w ∈ words) ∧ l = joinWords ws

/- ### The video frame loop (`createVideoFromImage` / `animate`) -/

/-- `duration = 12_000` milliseconds. -/
def duration : ℕ := 12000

/-- `fps = 30`. -/
def fps : ℕ := 30

/-- `totalFrames = Math.floor((duration / 1000) * fps)`. -/
def totalFrames : ℕ := Int.toNat ⌊((duration : ℚ) / 1000) * (fps : ℚ)⌋

/-- The indices at which `animate` calls `drawVideoFrame`, starting from the
current `frame` counter: each call draws the current frame, increments the
counter, and schedules another call exactly when `frame <= totalFrames` still
holds after the increment. -/
def animateFrom (total frame : ℕ) : List ℕ :=
  frame :: (if h : frame + 1 ≤ total then animateFrom total (frame + 1) else [])
termination_by total - frame
decreasing_by omega

/-- All frame indices rendered by one video job (the loop starts at
`frame = 0`). -/
def renderedFrames : List ℕ := animateFrom totalFrames 0

/-- The progress fraction `frame / totalFrames` computed at the top of
`animate` and passed to `drawVideoFrame`. -/
def progressOf (frame : ℕ) : ℚ := (frame : ℚ) / (totalFrames : ℚ)

/- ### The transcoding step (`transcodeToMp4`) -/

/-- The two modelled failure points of `transcodeToMp4`: the `ffmpeg.exec`
re-encode rejecting, and the `ffmpeg.readFile` of the output rejecting. -/
inductive TranscodeError where
  | execFailed
  | readFailed
deriving DecidableEq

/-- Writing a file into the ffmpeg virtual file system. -/
def fsWrite (fs : List String) (name : String) : List String :=
  if name ∈ fs then fs else fs ++ [name]

/-- Deleting a file from the ffmpeg virtual file system. -/
def fsDelete (fs : List String) (name : String) : List String := fs.erase name

/-- The control and temporary-file flow of `transcodeToMp4`, parameterised by
which awaited step rejects. The body has no `try`/`finally`: the two
`ffmpeg.deleteFile` calls are the last statements before `return`, so any
earlier rejection propagates with the files written so far still present. -/
def transcodeToMp4Run (execOk readOk : Bool) : Except TranscodeError Unit × List String :=
  let fs1 := fsWrite [] "input.webm"
  if !execOk then (Except.error TranscodeError.execFailed, fs1)
  else
    let fs2 := fsWrite fs1 "output.mp4"
    if !readOk then (Except.error TranscodeError.readFailed, fs2)
    else
      let fs3 := fsDelete fs2 "input.webm"
      let fs4 := fsDelete fs3 "output.mp4"
      (Except.ok (), fs4)

/- ### The batch driver (`processFiles`) -/

/-- Outcome of one `processFiles` call: `delivered` is the `results` array
passed to `setEnhanced` (or `none` when the surrounding `catch` swallowed an
error before that call), and `attempted` lists the files on which
`enhanceOne` was actually invoked, in order. -/
structure BatchRun (α β : Type) where
  delivered : Option (List β)
  attempted : List α
deriving DecidableEq

/-- The `for (const file of files)` loop of `processFiles` with its result
accumulator, stopped by the single surrounding `try`/`catch`: a throwing
`enhanceOne` aborts the loop and `setEnhanced` is never reached. -/
def processFilesAux {α β ε : Type} (enhance : α → Except ε β) :
    List α → List β → List α → BatchRun α β
  | [], results, attempted => ⟨some results.reverse, attempted.reverse⟩
  | file :: rest, results, attempted =>
    match enhance file with
    | Except.ok r => processFilesAux enhance rest (r :: results) (file :: attempted)
    | Except.error _ => ⟨none, (file :: attempted).reverse⟩

/-- The source's `processFiles` over a batch of files, with `enhanceOne`
abstracted as a fallible per-file step. -/
def processFiles {α β ε : Type} (enhance : α → Except ε β) (files : List α) : BatchRun α β :=
  processFilesAux enhance files [] []

/- ### Concrete inputs used in counterexamples and witnesses -/

/-- A 3×3 RGBA raster: red channel 4 at the centre pixel `(1, 1)` and 5 at its
four orthogonal neighbours, all other samples 0. Its centre 3×3 neighbourhood
has non-zero local contrast. -/
def cexImage : ℤ → ℤ := fun i =>
  if i = 16 then 4
  else if i = 4 then 5
  else if i = 12 then 5
  else if i = 20 then 5
  else if i = 28 then 5
  else 0

/-- A per-file step that fails on file `1` and succeeds elsewhere. -/
def testEnhance : ℕ → Except String ℕ :=
  fun n => if n = 1 then Except.error "decode failure" else Except.ok (n * 10)

/-- `touches width p i` says that processing pixel `p` writes byte index `i`
(one of its three colour-channel indices; the alpha index is never written). -/
def touches (width : ℤ) (p : ℤ × ℤ) (i : ℤ) : Prop :=
  i = getIndex width p.1 p.2 ∨ i = getIndex width p.1 p.2 + 1 ∨ i = getIndex width p.1 p.2 + 2

/- ### Lemmas about the sharpen loop -/

theorem sharpenPixel_untouched (copy : ℤ → ℤ) (width : ℤ) (intensity : ℚ) (d : ℤ → ℤ)
    (p : ℤ × ℤ) (i : ℤ) (h : ¬ touches width p i) :
    sharpenPixel copy width intensity d p.1 p.2 i = d i := by
  simp only [touches, not_or] at h
  obtain ⟨h0, h1, h2⟩ := h
  simp [sharpenPixel, updateBuf, h0, h1, h2]

theorem foldl_sharpen_untouched (copy : ℤ → ℤ) (width : ℤ) (intensity : ℚ) :
    ∀ (ps : List (ℤ × ℤ)) (d : ℤ → ℤ) (i : ℤ), (∀ p ∈ ps, ¬ touches width p i) →
      (ps.foldl (fun d p => sharpenPixel copy width intensity d p.1 p.2) d) i = d i := by
  intro ps
  induction ps with
  | nil => intro d i _; rfl
  | cons p ps ih =>
    intro d i h
    rw [List.foldl_cons, ih _ _ (fun q hq => h q (List.mem_cons_of_mem _ hq)),
      sharpenPixel_untouched _ _ _ _ _ _ (h p (List.mem_cons_self _ _))]

theorem sharpenPixel_writes (copy : ℤ → ℤ) (width : ℤ) (intensity : ℚ) (d : ℤ → ℤ)
    (x y ch : ℤ) (hch : ch = 0 ∨ ch = 1 ∨ ch = 2) :
    sharpenPixel copy width intensity d x y (getIndex width x y + ch) =
      storeByte ((d (getIndex width x y + ch) : ℚ) + convSum copy width intensity x y ch) := by
  have e1 : getIndex width x y ≠ getIndex width x y + 1 := by omega
  have e2 : getIndex width x y ≠ getIndex width x y + 2 := by omega
  have e3 : getIndex width x y + 1 ≠ getIndex width x y + 2 := by omega
  have e4 : getIndex width x y + 1 ≠ getIndex width x y := by omega
  have e5 : getIndex width x y + 2 ≠ getIndex width x y := by omega
  have e6 : getIndex width x y + 2 ≠ getIndex width x y + 1 := by omega
  rcases hch with h | h | h <;> subst h <;>
    simp [sharpenPixel, updateBuf, e1, e2, e3, e4, e5, e6]

theorem foldl_sharpen_write (copy : ℤ → ℤ) (width : ℤ) (intensity : ℚ) (x y ch : ℤ)
    (hch : ch = 0 ∨ ch = 1 ∨ ch = 2) :
    ∀ (ps : List (ℤ × ℤ)) (d : ℤ → ℤ),
      (∀ q ∈ ps, q ≠ (x, y) → ¬ touches width q (getIndex width x y + ch)) →
      ps.Nodup →
      (ps.foldl (fun d p => sharpenPixel copy width intensity d p.1 p.2) d)
          (getIndex width x y + ch) =
        if (x, y) ∈ ps then
          storeByte ((d (getIndex width x y + ch) : ℚ) + convSum copy width intensity x y ch)
        else d (getIndex width x y + ch) := by
  intro ps
  induction ps with
  | nil => intro d _ _; simp
  | cons p ps ih =>
    intro d hq hnd
    have hpn : p ∉ ps := (List.nodup_cons.mp hnd).1
    have hnd' : ps.Nodup := (List.nodup_cons.mp hnd).2
    by_cases hp : p = (x, y)
    · subst hp
      rw [List.foldl_cons,
        foldl_sharpen_untouched copy width intensity ps _ _
          (fun q hqs => hq q (List.mem_cons_of_mem _ hqs)
            (fun hcontra => hpn (hcontra ▸ hqs))),
        sharpenPixel_writes copy width intensity d x y ch hch,
        if_pos (List.mem_cons_self _ _)]
    · have hstep : sharpenPixel copy width intensity d p.1 p.2 (getIndex width x y + ch) =
          d (getIndex width x y + ch) :=
        sharpenPixel_untouched _ _ _ _ _ _ (hq p (List.mem_cons_self _ _) hp)
      rw [List.foldl_cons, ih _ (fun q hqs => hq q (List.mem_cons_of_mem _ hqs)) hnd']
      have hmem : ((x, y) ∈ p :: ps) ↔ ((x, y) ∈ ps) := by
        simp [List.mem_cons]
        intro hcontra
        exact absurd hcontra.symm hp
      by_cases hm : (x, y) ∈ ps
      · rw [if_pos hm, if_pos (hmem.mpr hm), hstep]
      · rw [if_neg hm, if_neg (fun hc => hm (hmem.mp hc))]; exact hstep

theorem mem_interiorRow (width y : ℕ) (p : ℤ × ℤ) :
    p ∈ interiorRow width y ↔
      ∃ x : ℕ, (1 ≤ x ∧ x < 1 + (width - 2)) ∧ p = ((x : ℤ), (y : ℤ)) := by
  constructor
  · intro h
    obtain ⟨x, hx, rfl⟩ := List.mem_map.mp h
    exact ⟨x, List.mem_range'_1.mp hx, rfl⟩
  · rintro ⟨x, hx, rfl⟩
    exact List.mem_map.mpr ⟨x, List.mem_range'_1.mpr hx, rfl⟩

theorem mem_interiorCoords (width height : ℕ) (p : ℤ × ℤ) :
    p ∈ interiorCoords width height ↔
      1 ≤ p.1 ∧ p.1 ≤ (width : ℤ) - 2 ∧ 1 ≤ p.2 ∧ p.2 ≤ (height : ℤ) - 2 := by
  obtain ⟨px, py⟩ := p
  constructor
  · intro h
    obtain ⟨row, hrow, hp⟩ := List.mem_flatten.mp h
    obtain ⟨y, hy, rfl⟩ := List.mem_map.mp hrow
    obtain ⟨hy1, hy2⟩ := List.mem_range'_1.mp hy
    obtain ⟨x, ⟨hx1, hx2⟩, hpx⟩ := (mem_interiorRow width y _).mp hp
    rw [Prod.mk.injEq] at hpx
    obtain ⟨rfl, rfl⟩ := hpx
    refine ⟨by omega, by omega, by omega, by omega⟩
  · rintro ⟨h1, h2, h3, h4⟩
    apply List.mem_flatten.mpr
    refine ⟨interiorRow width py.toNat, ?_, ?_⟩
    · exact List.mem_map.mpr
        ⟨py.toNat, List.mem_range'_1.mpr ⟨by omega, by omega⟩, rfl⟩
    · apply (mem_interiorRow _ _ _).mpr
      refine ⟨px.toNat, ⟨by omega, by omega⟩, ?_⟩
      rw [Prod.mk.injEq]
      constructor <;> omega

theorem nodup_interiorRow (width y : ℕ) : (interiorRow width y).Nodup := by
  apply List.Nodup.map
  · intro a b hab
    simp only [Prod.mk.injEq] at hab
    exact_mod_cast hab.1
  · exact List.nodup_range' ..

theorem nodup_interiorCoords (width height : ℕ) : (interiorCoords width height).Nodup := by
  apply List.nodup_flatten.mpr
  constructor
  · intro row hrow
    obtain ⟨y, _, rfl⟩ := List.mem_map.mp hrow
    exact nodup_interiorRow width y
  · have hpw : (List.range' 1 (height - 2)).Pairwise (fun a b => a ≠ b) :=
      List.nodup_range' ..
    refine List.Pairwise.map _ ?_ hpw
    intro y1 y2 hne p hp1 hp2
    obtain ⟨x1, _, rfl⟩ := (mem_interiorRow _ _ _).mp hp1
    obtain ⟨x2, _, h⟩ := (mem_interiorRow _ _ _).mp hp2
    rw [Prod.mk.injEq] at h
    have h2 : (y1 : ℤ) = (y2 : ℤ) := h.2
    exact hne (by exact_mod_cast h2)

/-- Row-major linear pixel ids are injective on coordinates with `x` in range. -/
theorem rowMajor_inj (w qx qy x y : ℤ) (hw : 0 < w) (hqx : 0 ≤ qx) (hqx2 : qx < w)
    (hx : 0 ≤ x) (hx2 : x < w) (h : qy * w + qx = y * w + x) : qx = x ∧ qy = y := by
  have hd : (qy - y) * w = x - qx := by ring_nf; linarith
  rcases lt_trichotomy qy y with hlt | heq | hgt
  · exfalso
    have h1 : qy - y ≤ -1 := by omega
    have h2 : (qy - y) * w ≤ -1 * w := mul_le_mul_of_nonneg_right h1 (le_of_lt hw)
    linarith
  · subst heq
    exact ⟨by omega, rfl⟩
  · exfalso
    have h1 : 1 ≤ qy - y := by omega
    have h2 : 1 * w ≤ (qy - y) * w := mul_le_mul_of_nonneg_right h1 (le_of_lt hw)
    linarith

/-- If processing pixel `q` touches a channel index of pixel `(x, y)` and both
pixels have `x`-coordinates inside the row, then `q` is that pixel and the
index is one of the three colour channels. -/
theorem touches_getIndex (w : ℤ) (hw : 0 < w) (q : ℤ × ℤ) (x y ch : ℤ)
    (hqx : 0 ≤ q.1) (hqx2 : q.1 < w) (hx : 0 ≤ x) (hx2 : x < w)
    (hch : 0 ≤ ch) (hch2 : ch < 4)
    (ht : touches w q (getIndex w x y + ch)) :
    q.1 = x ∧ q.2 = y ∧ (ch = 0 ∨ ch = 1 ∨ ch = 2) := by
  have hlin : q.2 * w + q.1 = y * w + x ∧ (ch = 0 ∨ ch = 1 ∨ ch = 2) := by
    rcases ht with h | h | h <;>
    · simp only [getIndex] at h
      constructor
      · have hA : (q.2 * w + q.1) * 4 = (y * w + x) * 4 + ch ∨
            (q.2 * w + q.1) * 4 + 1 = (y * w + x) * 4 + ch ∨
            (q.2 * w + q.1) * 4 + 2 = (y * w + x) * 4 + ch := by omega
        generalize hA' : q.2 * w + q.1 = A at hA ⊢
        generalize hB' : y * w + x = B at hA ⊢
        omega
      · generalize hA' : q.2 * w + q.1 = A at h
        generalize hB' : y * w + x = B at h
        omega
  obtain ⟨hlin1, hlin2⟩ := hlin
  obtain ⟨e1, e2⟩ := rowMajor_inj w q.1 q.2 x y hw hqx hqx2 hx hx2 hlin1
  exact ⟨e1, e2, hlin2⟩

/- ### Claim theorems about the sharpen pass -/

/-- C10: the sharpen pass never modifies the alpha channel: every byte index
congruent to 3 mod 4 (the fourth sample of a pixel) holds the same value in
the output buffer as in the input buffer, for every raster and intensity. -/
theorem sharpen_alpha_unchanged (width height : ℕ) (data : ℤ → ℤ) (intensity : ℚ)
    (i : ℤ) (hi : i % 4 = 3) :
    applySharpen width height data intensity i = data i := by
  simp only [applySharpen]
  apply foldl_sharpen_untouched
  intro q hq ht
  rcases ht with h | h | h <;>
  · simp only [getIndex] at h
    generalize hA : q.2 * (width : ℤ) + q.1 = A at h
    omega

theorem sharpen_alpha_unchanged_witness :
    applySharpen 3 3 (fun j => j) (3 / 4) 19 = 19 :=
  sharpen_alpha_unchanged 3 3 (fun j => j) (3 / 4) 19 (by decide)

/-- C7 (amended): for every raster with `width > 2`, `height > 2` and sharpen
intensity `> 0`, the outermost one-pixel border is bitwise unchanged, and each
colour channel of each interior pixel becomes
`store(original + Σ weight·neighbour)` computed from the pre-pass snapshot —
so an interior pixel with non-zero local contrast is *not* guaranteed to
change: the accumulated delta can vanish or be absorbed by the 0/255 clamp. -/
theorem sharpen_border_and_interior (width height : ℕ) (data : ℤ → ℤ) (intensity : ℚ)
    (hw : 3 ≤ width) (hh : 3 ≤ height) (hpos : 0 < intensity) :
    (∀ x y ch : ℤ, 0 ≤ x → x < (width : ℤ) → 0 ≤ y → y < (height : ℤ) →
        (x = 0 ∨ x = (width : ℤ) - 1 ∨ y = 0 ∨ y = (height : ℤ) - 1) →
        0 ≤ ch → ch < 4 →
        applySharpen width height data intensity (getIndex width x y + ch) =
          data (getIndex width x y + ch)) ∧
    (∀ x y ch : ℤ, 1 ≤ x → x ≤ (width : ℤ) - 2 → 1 ≤ y → y ≤ (height : ℤ) - 2 →
        (ch = 0 ∨ ch = 1 ∨ ch = 2) →
        applySharpen width height data intensity (getIndex width x y + ch) =
          storeByte ((data (getIndex width x y + ch) : ℚ) +
            convSum data width intensity x y ch)) := by
  have hw0 : (0 : ℤ) < (width : ℤ) := by omega
  constructor
  · intro x y ch hx0 hx1 hy0 hy1 hborder hch0 hch1
    simp only [applySharpen]
    apply foldl_sharpen_untouched
    intro q hq ht
    obtain ⟨hq1, hq2, hq3, hq4⟩ := (mem_interiorCoords width height q).mp hq
    obtain ⟨e1, e2, _⟩ := touches_getIndex (width : ℤ) hw0 q x y ch (by omega) (by omega)
      hx0 hx1 hch0 hch1 ht
    omega
  · intro x y ch hx1 hx2 hy1 hy2 hch
    have hch0 : 0 ≤ ch := by rcases hch with h | h | h <;> omega
    have hch4 : ch < 4 := by rcases hch with h | h | h <;> omega
    have h1 : ∀ q ∈ interiorCoords width height, q ≠ (x, y) →
        ¬ touches (width : ℤ) q (getIndex (width : ℤ) x y + ch) := by
      intro q hq hne ht
      obtain ⟨hq1, hq2, _, _⟩ := (mem_interiorCoords width height q).mp hq
      obtain ⟨e1, e2, _⟩ := touches_getIndex (width : ℤ) hw0 q x y ch (by omega) (by omega)
        (by omega) (by omega) hch0 hch4 ht
      exact hne (Prod.ext e1 e2)
    simp only [applySharpen]
    rw [foldl_sharpen_write data (width : ℤ) intensity x y ch hch
        (interiorCoords width height) data h1 (nodup_interiorCoords width height),
      if_pos ((mem_interiorCoords width height (x, y)).mpr ⟨hx1, hx2, hy1, hy2⟩)]

theorem sharpen_border_and_interior_witness :
    applySharpen 3 3 (fun _ => 9) 1 (getIndex 3 0 0) = 9 ∧
    applySharpen 3 3 (fun _ => 9) 1 (getIndex 3 1 1) =
      storeByte ((9 : ℚ) + convSum (fun _ => 9) 3 1 1 1 0) := by
  have h := sharpen_border_and_interior 3 3 (fun _ => 9) 1 (by norm_num) (by norm_num)
    (by norm_num)
  constructor
  · have hb := h.1 0 0 0 (by norm_num) (by norm_num) (by norm_num) (by norm_num)
      (Or.inl rfl) (by norm_num) (by norm_num)
    simpa using hb
  · have hi := h.2 1 1 0 (by norm_num) (by norm_num) (by norm_num) (by norm_num)
      (Or.inl rfl)
    simpa using hi

/-- C7 (counterexample): a 3×3 raster whose centre 3×3 neighbourhood has
non-zero local contrast (red 4 at the centre against red 5 orthogonally and 0
diagonally), sharpened with intensity 1 > 0, leaves the interior pixel `(1, 1)`
bitwise unchanged in all four samples: the kernel delta cancels exactly. -/
theorem sharpen_unchanged_contrast_cex :
    applySharpen 3 3 cexImage 1 (getIndex 3 1 1) = cexImage (getIndex 3 1 1) ∧
    applySharpen 3 3 cexImage 1 (getIndex 3 1 1 + 1) = cexImage (getIndex 3 1 1 + 1) ∧
    applySharpen 3 3 cexImage 1 (getIndex 3 1 1 + 2) = cexImage (getIndex 3 1 1 + 2) ∧
    applySharpen 3 3 cexImage 1 (getIndex 3 1 1 + 3) = cexImage (getIndex 3 1 1 + 3) ∧
    cexImage (getIndex 3 1 1) ≠ cexImage (getIndex 3 1 0) := by
  with_unfolding_all decide

/-- C8: with sharpen intensity 0 the pixel stage of `enhanceOne` returns the
resampled buffer untouched — the convolution pass is skipped entirely. -/
theorem sharpen_zero_pipeline_identity (width height : ℕ) (imageData : ℤ → ℤ)
    (opts : ProcessingOptions) (hs : opts.sharpen = 0) :
    enhancePixels width height imageData opts = imageData := by
  simp [enhancePixels, hs]

theorem sharpen_zero_pipeline_identity_witness :
    enhancePixels 3 3 (fun j => j) ⟨2, 108 / 100, 112 / 100, 0⟩ = (fun j => j) :=
  sharpen_zero_pipeline_identity 3 3 (fun j => j) ⟨2, 108 / 100, 112 / 100, 0⟩ rfl

/- ### Claim theorems about parameter handling (`enhanceOne`) -/

/-- C5 (counterexample): `enhanceOne` performs no clamping at all — a
brightness of 3 (outside 0.5–2.0) is interpolated into the colour filter
unmodified, and a sharpen intensity of 4 (outside 0–1) is handed to
`applySharpen` unmodified, the convolution really running at intensity 4. -/
theorem params_not_clamped_cex :
    (enhanceOnePlan 100 100 ⟨2, 3, 21 / 10, 4⟩).filterBrightness = 3 ∧
    ¬ ((1 / 2 : ℚ) ≤ 3 ∧ (3 : ℚ) ≤ 2) ∧
    (enhanceOnePlan 100 100 ⟨2, 3, 21 / 10, 4⟩).sharpenIntensity = some 4 ∧
    ¬ ((4 : ℚ) ≤ 1) ∧
    enhancePixels 3 3 (fun _ => 100) ⟨2, 3, 21 / 10, 4⟩ 16 =
      applySharpen 3 3 (fun _ => 100) 4 16 := by
  with_unfolding_all decide

/-- C5 (amended): the enhancement pass neither validates nor clamps its
parameters: brightness and saturation reach the colour filter verbatim, the
canvas is `source × scale`, and the convolution runs with the verbatim sharpen
intensity exactly when it is positive (a non-positive sharpen merely skips the
pass). No parameter value causes a failure. -/
theorem enhance_params_passthrough (srcWidth srcHeight : ℚ) (opts : ProcessingOptions)
    (width height : ℕ) (d : ℤ → ℤ) (i : ℤ) :
    (enhanceOnePlan srcWidth srcHeight opts).filterBrightness = opts.brightness ∧
    (enhanceOnePlan srcWidth srcHeight opts).filterSaturation = opts.saturation ∧
    (enhanceOnePlan srcWidth srcHeight opts).canvasWidth = srcWidth * opts.scale ∧
    (enhanceOnePlan srcWidth srcHeight opts).canvasHeight = srcHeight * opts.scale ∧
    (0 < opts.sharpen →
      (enhanceOnePlan srcWidth srcHeight opts).sharpenIntensity = some opts.sharpen ∧
      enhancePixels width height d opts i = applySharpen width height d opts.sharpen i) ∧
    (opts.sharpen ≤ 0 →
      (enhanceOnePlan srcWidth srcHeight opts).sharpenIntensity = none ∧
      enhancePixels width height d opts i = d i) := by
  refine ⟨rfl, rfl, rfl, rfl, ?_, ?_⟩
  · intro hs
    constructor
    · simp [enhanceOnePlan, hs]
    · simp [enhancePixels, hs]
  · intro hs
    have hns : ¬ opts.sharpen > 0 := not_lt.mpr hs
    constructor
    · simp [enhanceOnePlan, hns]
    · simp [enhancePixels, hns]

theorem enhance_params_passthrough_witness :
    (enhanceOnePlan 5 7 ⟨2, 3, 21 / 10, 4⟩).sharpenIntensity = some 4 ∧
    enhancePixels 0 0 (fun _ => 0) ⟨2, 3, 21 / 10, 4⟩ 0 =
      applySharpen 0 0 (fun _ => 0) 4 0 :=
  (enhance_params_passthrough 5 7 ⟨2, 3, 21 / 10, 4⟩ 0 0 (fun _ => 0) 0).2.2.2.2.1
    (by norm_num)

/- ### Claim theorems about the brand hashtag -/

/-- C4 (counterexample): the branding tag strips only whitespace, not general
non-alphanumeric characters: the brand `a-b` yields the tag `#a-b`, which still
contains the non-alphanumeric hyphen. -/
theorem branding_keeps_nonalnum_cex :
    brandingText "a-b" = "#a-b" ∧
    '-' ∈ (brandingText "a-b").data ∧
    '-'.isAlphanum = false := by
  decide

/-- C4 (amended): for the empty brand no tag is produced; for every non-empty
brand the tag is a hash sign followed by the brand with exactly its whitespace
characters removed — all other characters, alphanumeric or not, are kept. -/
theorem brandingText_strips_only_whitespace (brand : String) :
    (brand = "" → brandingText brand = "") ∧
    (brand ≠ "" →
      (brandingText brand).data = '#' :: brand.data.filter (fun c => !(isJsWhitespace c))) := by
  constructor
  · intro h
    simp [brandingText, h]
  · intro h
    have hmk : ("#" ++ String.mk (brand.data.filter (fun c => !(isJsWhitespace c)))).data =
        '#' :: brand.data.filter (fun c => !(isJsWhitespace c)) := by
      rw [String.data_append]
      rfl
    simp [brandingText, h, hmk]

theorem brandingText_strips_only_whitespace_witness :
    (brandingText "a b").data = '#' :: "a b".data.filter (fun c => !(isJsWhitespace c)) :=
  (brandingText_strips_only_whitespace "a b").2 (by decide)

/- ### Claim theorems about the transcoding step -/

/-- C2 (counterexample): when the `ffmpeg.exec` re-encode rejects, the error
propagates out of `transcodeToMp4` while the already-written temporary input
file is still present — there is no `finally` releasing it. -/
theorem transcode_leak_on_exec_failure :
    (transcodeToMp4Run false true).1 = Except.error TranscodeError.execFailed ∧
    "input.webm" ∈ (transcodeToMp4Run false true).2 := by
  exact ⟨rfl, by decide⟩

/-- C2 (amended): on the success path both temporary files are deleted before
the payload is returned; but a failing re-encode propagates with `input.webm`
still present, and a failing output read propagates with both `input.webm` and
`output.mp4` still present. -/
theorem transcode_cleanup_characterization :
    ((transcodeToMp4Run true true).1 = Except.ok () ∧ (transcodeToMp4Run true true).2 = []) ∧
    (∀ r : Bool, (transcodeToMp4Run false r).1 = Except.error TranscodeError.execFailed ∧
      (transcodeToMp4Run false r).2 = ["input.webm"]) ∧
    ((transcodeToMp4Run true false).1 = Except.error TranscodeError.readFailed ∧
      (transcodeToMp4Run true false).2 = ["input.webm", "output.mp4"]) := by
  refine ⟨⟨rfl, rfl⟩, fun r => ⟨rfl, rfl⟩, rfl, rfl⟩

/- ### Claim theorems about the batch driver -/

/-- C3 (counterexample): in the batch `[0, 1, 2]` where only file 1 fails,
`processFiles` delivers nothing at all (the already-computed result for file 0
is discarded) and never attempts file 2, even though enhancing files 0 and 2
succeeds. -/
theorem batch_abort_cex :
    (processFiles testEnhance [0, 1, 2]).delivered = none ∧
    (processFiles testEnhance [0, 1, 2]).attempted = [0, 1] ∧
    (testEnhance 0).isOk = true ∧
    (testEnhance 2).isOk = true := by
  decide

/-- C3 (amended): a failure while enhancing one file aborts the whole batch:
the files after the failing one are never attempted, and no results — not even
those already produced for earlier files — are delivered (the single
`try`/`catch` around the loop swallows the error before `setEnhanced`). -/
theorem batch_failure_aborts {α β ε : Type} (enhance : α → Except ε β)
    (files₁ : List α) (file : α) (files₂ : List α)
    (h₁ : ∀ g ∈ files₁, (enhance g).isOk = true) (h₂ : (enhance file).isOk = false) :
    processFiles enhance (files₁ ++ file :: files₂) = ⟨none, files₁ ++ [file]⟩ := by
  obtain ⟨e, he⟩ : ∃ e, enhance file = Except.error e := by
    cases hef : enhance file with
    | ok r => rw [hef] at h₂; simp [Except.isOk, Except.toBool] at h₂
    | error e => exact ⟨e, rfl⟩
  suffices haux : ∀ (fs : List α) (results : List β) (attempted : List α),
      (∀ g ∈ fs, (enhance g).isOk = true) →
      processFilesAux enhance (fs ++ file :: files₂) results attempted =
        ⟨none, attempted.reverse ++ fs ++ [file]⟩ by
    have h := haux files₁ [] [] h₁
    simpa [processFiles] using h
  intro fs
  induction fs with
  | nil =>
    intro results attempted _
    simp [processFilesAux, he]
  | cons g fs ih =>
    intro results attempted hok
    obtain ⟨r, hr⟩ : ∃ r, enhance g = Except.ok r := by
      cases heg : enhance g with
      | ok r => exact ⟨r, rfl⟩
      | error e' =>
        have := hok g (List.mem_cons_self _ _)
        rw [heg] at this
        simp [Except.isOk, Except.toBool] at this
    have hstep : processFilesAux enhance ((g :: fs) ++ file :: files₂) results attempted =
        processFilesAux enhance (fs ++ file :: files₂) (r :: results) (g :: attempted) := by
      simp only [List.cons_append, processFilesAux, hr]
      rfl
    rw [hstep, ih _ _ (fun q hq => hok q (List.mem_cons_of_mem _ hq))]
    simp

theorem batch_failure_aborts_witness :
    processFiles testEnhance ([0] ++ 1 :: [2]) = ⟨none, [0] ++ [1]⟩ :=
  batch_failure_aborts testEnhance [0] 1 [2] (by decide) (by decide)

/- ### Claim theorems about the video frame loop -/

theorem totalFrames_eq : totalFrames = 360 := by
  with_unfolding_all decide

theorem animateFrom_eq_range' (total : ℕ) :
    ∀ frame : ℕ, frame ≤ total → animateFrom total frame = List.range' frame (total - frame + 1) := by
  suffices haux : ∀ (n frame : ℕ), frame ≤ total → total - frame = n →
      animateFrom total frame = List.range' frame (total - frame + 1) by
    intro frame h
    exact haux (total - frame) frame h rfl
  intro n
  induction n with
  | zero =>
    intro frame hle h0
    have hft : frame = total := by omega
    rw [animateFrom, dif_neg (by omega : ¬ frame + 1 ≤ total), h0]
    rfl
  | succ n ih =>
    intro frame hle h
    have h1 : frame + 1 ≤ total := by omega
    rw [animateFrom, dif_pos h1, ih (frame + 1) h1 (by omega)]
    have h2 : total - frame + 1 = (total - (frame + 1) + 1) + 1 := by omega
    rw [h2]
    rfl

/-- C1: one video job draws a frame for every index from 0 through
`totalFrames` inclusive — `animate` increments before testing
`frame <= totalFrames` — so with `totalFrames = floor(12000/1000·30) = 360` the
loop renders 361 frames, not 360. -/
theorem video_renders_361_frames :
    totalFrames = 360 ∧ renderedFrames.length = 361 := by
  refine ⟨totalFrames_eq, ?_⟩
  have h : renderedFrames = List.range' 0 (totalFrames - 0 + 1) :=
    animateFrom_eq_range' totalFrames 0 (Nat.zero_le _)
  rw [h, List.length_range', totalFrames_eq]

/-- C6: the final rendered frame is frame index 360 = `totalFrames`, whose
progress fraction `frame / totalFrames` is exactly 1, outside the claimed
half-open interval `[0, 1)`. -/
theorem final_frame_progress_reaches_one :
    360 ∈ renderedFrames ∧ progressOf 360 = 1 ∧ ¬ progressOf 360 < 1 := by
  refine ⟨?_, ?_, ?_⟩
  · show 360 ∈ animateFrom totalFrames 0
    rw [animateFrom_eq_range' totalFrames 0 (Nat.zero_le _), totalFrames_eq]
    exact List.mem_range'_1.mpr ⟨by omega, by omega⟩
  · rw [progressOf, totalFrames_eq]
    norm_num
  · rw [progressOf, totalFrames_eq]
    norm_num

/- ### Claim theorems about the caption word wrap -/

theorem joinWords_append_single (ws : List String) (w : String) (h : ws ≠ []) :
    joinWords (ws ++ [w]) = joinWords ws ++ " " ++ w := by
  induction ws with
  | nil => exact absurd rfl h
  | cons x t ih =>
    cases t with
    | nil => simp [joinWords]
    | cons y t2 =>
      have h1 : joinWords ((x :: y :: t2) ++ [w]) = x ++ " " ++ joinWords ((y :: t2) ++ [w]) := by
        simp [joinWords]
      rw [h1, ih (by simp)]
      simp [joinWords, String.append_assoc]

theorem wrap_fold_invariant (words : List String) (fontSize maxWidth : ℚ) :
    ∀ (rest : List String) (st : List String × String),
      (∀ w ∈ rest, w ∈ words) →
      (∀ l ∈ st.1, WrapLineOk words fontSize maxWidth l) →
      (st.2 = "" ∨ WrapLineOk words fontSize maxWidth st.2) →
      (∀ l ∈ (rest.foldl (wrapStep fontSize maxWidth) st).1,
          WrapLineOk words fontSize maxWidth l) ∧
      ((rest.foldl (wrapStep fontSize maxWidth) st).2 = "" ∨
        WrapLineOk words fontSize maxWidth (rest.foldl (wrapStep fontSize maxWidth) st).2) := by
  intro rest
  induction rest with
  | nil => intro st _ h1 h2; exact ⟨h1, h2⟩
  | cons word rest ih =>
    intro st hrest h1 h2
    rw [List.foldl_cons]
    have hword : word ∈ words := hrest word (List.mem_cons_self _ _)
    have hPword : WrapLineOk words fontSize maxWidth word :=
      ⟨Or.inr hword, [word], by simp, by simpa using hword, rfl⟩
    apply ih _ (fun w hw => hrest w (List.mem_cons_of_mem _ hw))
    · by_cases hover : lineWidth (if st.2 = "" then word else st.2 ++ " " ++ word) fontSize >
          maxWidth
      · have hstep : wrapStep fontSize maxWidth st word =
            (if st.2 = "" then st.1 else st.1 ++ [st.2], word) := by
          simp only [wrapStep]
          rw [if_pos hover]
        rw [hstep]
        intro l hl
        by_cases hcl : st.2 = ""
        · rw [if_pos hcl] at hl
          exact h1 l hl
        · rw [if_neg hcl] at hl
          rcases List.mem_append.mp hl with hmem | hmem
          · exact h1 l hmem
          · have hls : l = st.2 := by simpa using hmem
            rcases h2 with he | hp
            · exact absurd he hcl
            · exact hls ▸ hp
      · have hstep : wrapStep fontSize maxWidth st word =
            (st.1, if st.2 = "" then word else st.2 ++ " " ++ word) := by
          simp only [wrapStep]
          rw [if_neg hover]
        rw [hstep]
        exact h1
    · by_cases hover : lineWidth (if st.2 = "" then word else st.2 ++ " " ++ word) fontSize >
          maxWidth
      · have hstep : wrapStep fontSize maxWidth st word =
            (if st.2 = "" then st.1 else st.1 ++ [st.2], word) := by
          simp only [wrapStep]
          rw [if_pos hover]
        rw [hstep]
        exact Or.inr hPword
      · have hstep : wrapStep fontSize maxWidth st word =
            (st.1, if st.2 = "" then word else st.2 ++ " " ++ word) := by
          simp only [wrapStep]
          rw [if_neg hover]
        rw [hstep]
        refine Or.inr ⟨Or.inl (not_lt.mp hover), ?_⟩
        by_cases hcl : st.2 = ""
        · rw [if_pos hcl]
          exact hPword.2
        · rw [if_neg hcl]
          rcases h2 with he | hp
          · exact absurd he hcl
          · obtain ⟨ws, hne, hmem, heq⟩ := hp.2
            refine ⟨ws ++ [word], by simp, ?_, ?_⟩
            · intro w hw
              rcases List.mem_append.mp hw with hm | hm
              · exact hmem w hm
              · have : w = word := by simpa using hm
                exact this ▸ hword
            · rw [joinWords_append_single ws word hne, ← heq]

/-- C9: every line emitted by `wrapText` either has estimated width
`length · fontSize · 0.55` within the maximum width or is exactly one of the
input words (so only a single over-long word can overflow), and every line is a
space-join of whole input words — words are never broken mid-word. -/
theorem wrapText_line_sound (text : String) (fontSize maxWidth : ℚ) (line : String)
    (hline : line ∈ wrapTextModel text fontSize maxWidth) :
    (lineWidth line fontSize ≤ maxWidth ∨ line ∈ splitWords text) ∧
    ∃ ws : List String, ws ≠ [] ∧ (∀ w ∈ ws, w ∈ splitWords text) ∧ line = joinWords ws := by
  have hinv := wrap_fold_invariant (splitWords text) fontSize maxWidth (splitWords text)
    ([], "") (fun w hw => hw) (by simp) (Or.inl rfl)
  simp only [wrapTextModel, wrapWords] at hline
  by_cases hcl : ((splitWords text).foldl (wrapStep fontSize maxWidth) ([], "")).2 = ""
  · rw [if_pos hcl] at hline
    exact hinv.1 line hline
  · rw [if_neg hcl] at hline
    rcases List.mem_append.mp hline with hmem | hmem
    · exact hinv.1 line hmem
    · have hls : line = ((splitWords text).foldl (wrapStep fontSize maxWidth) ([], "")).2 := by
        simpa using hmem
      rcases hinv.2 with he | hp
      · exact absurd he hcl
      · exact hls ▸ hp

theorem wrapText_line_sound_witness :
    lineWidth "aa bb" 28 ≤ 680 ∨ "aa bb" ∈ splitWords "aa bb" :=
  (wrapText_line_sound "aa bb" 28 680 "aa bb" (by with_unfolding_all decide)).1
